import Mathlib

/-!
Verification development for the `nl2audio` TTS subsystem (`src/nl2audio/tts.py`,
with credential checking from `src/nl2audio/validation.py`).

Python strings are modelled as `List Char` (ASCII-faithful: the inputs exercised
here are ASCII; Unicode-aware aspects of Python's `str.isupper`/`\s` are idealised
to their ASCII behaviour).  Python floats are idealised as exact rationals, with
Python's `round` (banker's rounding) modelled exactly on `ℚ`.  All definitions are
structurally recursive and executable, so concrete runs evaluate by `decide`.
-/

namespace NL2Audio

/-- Python strings, modelled as lists of characters. -/
abbrev Str := List Char

/-- The character class of Python's `str.isspace` / regex `\s` (ASCII part):
space, tab, newline, carriage return, vertical tab, form feed. -/
def pyIsSpace (c : Char) : Bool :=
  c = ' ' || c = '\t' || c = '\n' || c = '\r' || c = '\x0b' || c = '\x0c'

/-- Drop trailing whitespace (the right half of Python's `str.strip`). -/
def dropTrailing (l : Str) : Str :=
  (l.reverse.dropWhile pyIsSpace).reverse

/-- Python's `str.strip()`: drop leading and trailing whitespace. -/
def strip (l : Str) : Str :=
  dropTrailing (l.dropWhile pyIsSpace)

/-- Index of the last `'\n'` in a list, if any. -/
def lastNl : Str → Option Nat
  | [] => none
  | c :: rest =>
    match lastNl rest with
    | some k => some (k + 1)
    | none => if c = '\n' then some 0 else none

/-- Flush one buffered whitespace run that began with `'\n'`.
If the run contains a second newline, the regex `\n\s*\n` (with greedy `\s*`)
matches from the first newline through the last newline of the run and is
replaced by `"\n\n"`; the whitespace after the last newline passes through.
Otherwise the run passes through unchanged. -/
def flushRun (b : Str) : Str :=
  match lastNl b with
  | some k => if k = 0 then b else '\n' :: '\n' :: b.drop (k + 1)
  | none => b

/-- Scanner for `re.sub(r"\n\s*\n", "\n\n", text)`: `buf` buffers the whitespace
run currently being scanned, which starts at a `'\n'` (matches can only start at
a newline); on reaching a non-whitespace character or the end, the run is
flushed via `flushRun`.  `buf = []` means no run is open. -/
def subBlankGo (buf : Str) : Str → Str
  | [] => flushRun buf
  | c :: rest =>
    if buf.isEmpty then
      if c = '\n' then subBlankGo [c] rest
      else c :: subBlankGo [] rest
    else
      if pyIsSpace c then subBlankGo (buf ++ [c]) rest
      else flushRun buf ++ c :: subBlankGo [] rest

/-- `re.sub(r"\n\s*\n", "\n\n", text)` from `_clean_text`. -/
def subBlank (s : Str) : Str := subBlankGo [] s

/-- Scanner for `re.sub(r" +", " ", text)`: each maximal run of space characters
(only `' '` — the regex does not mention tabs) is replaced by a single space.
`prevSpace` records whether the previous character was a space. -/
def collapseSpacesGo (prevSpace : Bool) : Str → Str
  | [] => []
  | c :: rest =>
    if c = ' ' then
      if prevSpace then collapseSpacesGo true rest
      else ' ' :: collapseSpacesGo true rest
    else c :: collapseSpacesGo false rest

/-- `re.sub(r" +", " ", text)` from `_clean_text`. -/
def collapseSpaces (s : Str) : Str := collapseSpacesGo false s

/-- `_clean_text`: collapse blank-line runs, collapse space runs, strip. -/
def cleanText (t : Str) : Str := strip (collapseSpaces (subBlank t))

/-- Accumulating scanner for Python's `str.split()` (split on whitespace,
dropping empty fields).  `cur` holds the current word, reversed. -/
def wordsGo (cur : Str) : Str → List Str
  | [] => if cur.isEmpty then [] else [cur.reverse]
  | c :: rest =>
    if pyIsSpace c then
      if cur.isEmpty then wordsGo [] rest else cur.reverse :: wordsGo [] rest
    else wordsGo (c :: cur) rest

/-- Python's `text.split()` — the whitespace-delimited words of a string. -/
def pyWords (s : Str) : List Str := wordsGo [] s

/-- Accumulating scanner for Python's `text.split("\n")` (keeps empty fields). -/
def splitLinesGo (cur : Str) : Str → List Str
  | [] => [cur.reverse]
  | c :: rest =>
    if c = '\n' then cur.reverse :: splitLinesGo [] rest
    else splitLinesGo (c :: cur) rest

/-- Python's `text.split("\n")`. -/
def splitLines (s : Str) : List Str := splitLinesGo [] s

/-- Loop body of `_split_into_paragraphs`: nonempty stripped lines are
accumulated (each followed by a space); a blank line flushes the stripped
accumulator as one paragraph. -/
def splitIntoParagraphsGo (currentPara : Str) : List Str → List Str
  | [] => if currentPara.isEmpty then [] else [strip currentPara]
  | line :: rest =>
    let l := strip line
    if l.isEmpty then
      if currentPara.isEmpty then splitIntoParagraphsGo [] rest
      else strip currentPara :: splitIntoParagraphsGo [] rest
    else splitIntoParagraphsGo (currentPara ++ l ++ [' ']) rest

/-- `_split_into_paragraphs`. -/
def splitIntoParagraphs (text : Str) : List Str :=
  splitIntoParagraphsGo [] (splitLines text)

/-- `_is_sentence_end`. -/
def isSentenceEnd (c : Char) : Bool := c = '.' || c = '!' || c = '?'

/-- Character of `s` at index `i` (indices used below are always in bounds). -/
def charAt (s : Str) (i : Nat) : Char := s.getD i ' '

/-- Python's `for i in range(hi, stop, -1)` searching for the first index
(from `hi` downward, excluding `stop`) satisfying `p`. -/
def scanDown (p : Nat → Bool) : Nat → Nat → Option Nat
  | 0, _ => none
  | i + 1, stop =>
    if i + 1 ≤ stop then none
    else if p (i + 1) then some (i + 1) else scanDown p i stop

/-- The abbreviation heuristic inside `_find_safe_break_point`: skip a sentence
terminator at `i` when the previous character is uppercase and the next
character is whitespace (`text[i-1].isupper() and text[i+1].isspace()`). -/
def abbrevGuard (text : Str) (i : Nat) : Bool :=
  decide (0 < i) && (charAt text (i - 1)).isUpper &&
    decide (i < text.length - 1) && pyIsSpace (charAt text (i + 1))

/-- `_find_safe_break_point`: scan backward from `min(max_chars, len-1)` for a
sentence end (modulo the abbreviation guard), then a newline, then a comma or
semicolon, then any whitespace; if none found, force-break at `max_chars`. -/
def findSafeBreakPoint (text : Str) (maxChars startPos : Nat) : Nat :=
  if text.length ≤ maxChars then text.length
  else
    let hi := min maxChars (text.length - 1)
    match scanDown (fun i => isSentenceEnd (charAt text i) && !abbrevGuard text i) hi startPos with
    | some i => i + 1
    | none =>
    match scanDown (fun i => charAt text i = '\n') hi startPos with
    | some i => i + 1
    | none =>
    match scanDown (fun i => charAt text i = ',' || charAt text i = ';') hi startPos with
    | some i => i + 1
    | none =>
    match scanDown (fun i => pyIsSpace (charAt text i)) hi startPos with
    | some i => i + 1
    | none => maxChars

/-- The `while para:` splitting loop shared by the chunkers, with explicit fuel
to make the recursion structural.  Each Python iteration appends
`para[:break_point].strip()` and continues with `para[break_point:].strip()`.
The two `[strip para]` fallbacks are unreachable for `maxChars ≥ 1` and fuel
`≥ para.length` (with `maxChars = 0` the Python loop does not terminate). -/
def splitLongF (maxChars : Nat) : Nat → Str → List Str
  | _, [] => []
  | 0, para => [strip para]
  | fuel + 1, para =>
    let bp := findSafeBreakPoint para maxChars 0
    if bp = 0 then [strip para]
    else strip (para.take bp) :: splitLongF maxChars fuel (strip (para.drop bp))

/-- Split an over-long paragraph (or sentence) using the safe break-point
search, as in the `while para:` loops of `_chunk_smart`,
`_chunk_by_paragraphs` and `_chunk_by_sentences`. -/
def splitLong (maxChars : Nat) (para : Str) : List Str :=
  splitLongF maxChars para.length para

/-- Loop body of `_chunk_smart` over the paragraph list.  `current` is the
chunk under construction. -/
def chunkSmartGo (maxChars : Nat) (current : Str) : List Str → List Str
  | [] => if (strip current).isEmpty then [] else [strip current]
  | para :: rest =>
    let flush1 := decide (maxChars < current.length + para.length + 1) && !current.isEmpty
    let emitted1 := if flush1 then [strip current] else []
    let cur1 := if flush1 then [] else current
    if maxChars < para.length then
      let emitted2 := if cur1.isEmpty then [] else [strip cur1]
      emitted1 ++ emitted2 ++ splitLong maxChars para ++ chunkSmartGo maxChars [] rest
    else
      let cur2 := if cur1.isEmpty then para else cur1 ++ ' ' :: para
      emitted1 ++ chunkSmartGo maxChars cur2 rest

/-- `_chunk_smart`. -/
def chunkSmart (text : Str) (maxChars : Nat) : List Str :=
  chunkSmartGo maxChars [] (splitIntoParagraphs text)

/-- `_chunk_by_paragraphs`. -/
def chunkByParagraphs (text : Str) (maxChars : Nat) : List Str :=
  (splitIntoParagraphs text).flatMap fun para =>
    if para.length ≤ maxChars then [para] else splitLong maxChars para

/-- The regex lookbehind `(?<=[.!?])`: does the (reversed) current piece end
with a sentence terminator? -/
def headSentenceEnd : Str → Bool
  | p :: _ => isSentenceEnd p
  | [] => false

/-- Scanner for `re.split(r"(?<=[.!?])\s+", text)`: a split happens at a
whitespace character directly preceded by a sentence terminator; the greedy
`\s+` delimiter is consumed (state `inGap`).  `cur` holds the current piece,
reversed. -/
def splitSentencesGo (inGap : Bool) (cur : Str) : Str → List Str
  | [] => [cur.reverse]
  | c :: rest =>
    if inGap then
      if pyIsSpace c then splitSentencesGo true cur rest
      else splitSentencesGo false [c] rest
    else
      if pyIsSpace c && headSentenceEnd cur then
        cur.reverse :: splitSentencesGo true [] rest
      else splitSentencesGo false (c :: cur) rest

/-- `re.split(r"(?<=[.!?])\s+", text)` from `_chunk_by_sentences`. -/
def splitSentences (text : Str) : List Str := splitSentencesGo false [] text

/-- Loop body of `_chunk_by_sentences`: each sentence is stripped, empty ones
skipped; otherwise the packing logic mirrors `_chunk_smart`. -/
def chunkBySentencesGo (maxChars : Nat) (current : Str) : List Str → List Str
  | [] => if (strip current).isEmpty then [] else [strip current]
  | s0 :: rest =>
    let s := strip s0
    if s.isEmpty then chunkBySentencesGo maxChars current rest
    else
      let flush1 := decide (maxChars < current.length + s.length + 1) && !current.isEmpty
      let emitted1 := if flush1 then [strip current] else []
      let cur1 := if flush1 then [] else current
      if maxChars < s.length then
        let emitted2 := if cur1.isEmpty then [] else [strip cur1]
        emitted1 ++ emitted2 ++ splitLong maxChars s ++ chunkBySentencesGo maxChars [] rest
      else
        let cur2 := if cur1.isEmpty then s else cur1 ++ ' ' :: s
        emitted1 ++ chunkBySentencesGo maxChars cur2 rest

/-- `_chunk_by_sentences`. -/
def chunkBySentences (text : Str) (maxChars : Nat) : List Str :=
  chunkBySentencesGo maxChars [] (splitSentences text)

/-- `chunk_text`: clean the text, then dispatch on the strategy
(`"paragraph"`, `"sentence"`, anything else = smart). -/
def chunkText (text : Str) (maxChars : Nat) (strategy : String) : List Str :=
  let t := cleanText text
  if strategy = "paragraph" then chunkByParagraphs t maxChars
  else if strategy = "sentence" then chunkBySentences t maxChars
  else chunkSmart t maxChars

/-- Python's `round(x)` on an exact rational: round half to even. -/
def pyRoundInt (q : ℚ) : ℤ :=
  if q - ⌊q⌋ < 1 / 2 then ⌊q⌋
  else if 1 / 2 < q - ⌊q⌋ then ⌊q⌋ + 1
  else if ⌊q⌋ % 2 = 0 then ⌊q⌋ else ⌊q⌋ + 1

/-- Python's `round(x, ndigits)` on an exact rational. -/
def pyRoundTo (q : ℚ) (ndigits : Nat) : ℚ :=
  let scale : ℚ := (10 : ℚ) ^ ndigits
  (pyRoundInt (q * scale) : ℚ) / scale

/-- `TTS_PRICING = {"gpt-4o-mini-tts": 0.00015}` (USD per 1K characters). -/
def TTS_PRICING : List (String × ℚ) := [("gpt-4o-mini-tts", 15 / 100000)]

/-- `TTS_PRICING.get(model, TTS_PRICING["gpt-4o-mini-tts"])`. -/
def pricingGet (model : String) : ℚ :=
  match TTS_PRICING.find? (fun p => p.1 = model) with
  | some p => p.2
  | none => 15 / 100000

/-- The dictionary returned by `estimate_tts`. -/
structure Estimation where
  total_characters : Nat
  total_words : Nat
  num_chunks : Nat
  avg_chunk_size : ℚ
  estimated_minutes : ℚ
  estimated_cost_usd : ℚ
  model : String
  voice : String
  chunks_over_limit : Nat
  max_chars_per_chunk : Nat
  text_preview : Str
deriving DecidableEq, Repr

/-- `estimate_tts`: clean, chunk with the defaults (`max_chars = 3500`, smart
strategy), and report statistics.  Duration heuristic: `words / 150` minutes;
cost: `(chars / 1000) * rate`. -/
def estimateTts (text : Str) (voice model : String) : Estimation :=
  let cleaned := cleanText text
  let chunks := chunkText cleaned 3500 "smart"
  let totalChars := cleaned.length
  let numChunks := chunks.length
  let avgChunkSize : ℚ := if 0 < numChunks then (totalChars : ℚ) / (numChunks : ℚ) else 0
  let words := (pyWords cleaned).length
  let estimatedMinutes : ℚ := (words : ℚ) / 150
  let pricePer1k := pricingGet model
  let estimatedCost : ℚ := ((totalChars : ℚ) / 1000) * pricePer1k
  let maxCharsPerChunk := 3500
  let chunksOverLimit := (chunks.filter (fun c => maxCharsPerChunk < c.length)).length
  { total_characters := totalChars
    total_words := words
    num_chunks := numChunks
    avg_chunk_size := pyRoundTo avgChunkSize 1
    estimated_minutes := pyRoundTo estimatedMinutes 1
    estimated_cost_usd := pyRoundTo estimatedCost 4
    model := model
    voice := voice
    chunks_over_limit := chunksOverLimit
    max_chars_per_chunk := maxCharsPerChunk
    text_preview :=
      if 200 < cleaned.length then cleaned.take 200 ++ "...".toList
      else cleaned }

/-- Exceptions that can escape `synthesize`, by kind:
`validationError` models `ValidationError`, `ttsLength` models
`TTSLengthError`, `genericError` models a plain `Exception`. -/
inductive PyError where
  | validationError (msg : String)
  | ttsLength (msg : String)
  | genericError (msg : String)
deriving DecidableEq, Repr

/-- `synthesize` returns the estimation dictionary in dry-run mode and raw
audio bytes otherwise; the audio is modelled as the list of per-chunk segment
durations (milliseconds). -/
inductive SynthReturn where
  | estimation (e : Estimation)
  | audioBytes (segments : List Nat)
deriving DecidableEq, Repr

instance {ε α : Type} [DecidableEq ε] [DecidableEq α] : DecidableEq (Except ε α) := fun x y =>
  match x, y with
  | Except.ok a, Except.ok b =>
    if h : a = b then isTrue (by rw [h]) else isFalse (fun hh => h (Except.ok.inj hh))
  | Except.error a, Except.error b =>
    if h : a = b then isTrue (by rw [h]) else isFalse (fun hh => h (Except.error.inj hh))
  | Except.ok _, Except.error _ => isFalse (fun hh => Except.noConfusion hh)
  | Except.error _, Except.ok _ => isFalse (fun hh => Except.noConfusion hh)

/-- Observable outcome of one `synthesize` call: the returned value or raised
exception, whether a file was written at `out_path`, and how many chunks were
processed. -/
structure SynthOutcome where
  result : Except PyError SynthReturn
  fileWritten : Bool
  processedChunks : Nat
deriving DecidableEq, Repr

/-- The per-chunk loop of `synthesize`.  `speak` models the external TTS
capability (chunk text to decoded segment duration in ms; calls are assumed to
succeed).  After appending a segment, if `total_ms / 1000 / 60 > max_minutes`
(an exact comparison of rationals, written here in the equivalent integer form
`total_ms > 60000 * max_minutes`) a `TTSLengthError` is raised — inside the
`try` block, so the blanket `except Exception` of the same iteration catches
it and re-raises it as a generic
`Exception("TTS request failed for chunk {i+1}: {e}")`.  Returns
(number of chunks processed, accumulated segments, loop result). -/
def synthLoop (speak : Str → Nat) (maxMinutes : Nat) :
    List Str → Nat → Nat → List Nat → Nat × List Nat × Except PyError Unit
  | [], _, _, acc => (0, acc, Except.ok ())
  | chunk :: rest, i, totalMs, acc =>
    let d := speak chunk
    let total := totalMs + d
    if 60000 * maxMinutes < total then
      (1, acc ++ [d],
        Except.error (PyError.genericError
          ("TTS request failed for chunk " ++ toString (i + 1) ++
            ": Exceeded max minutes: " ++ toString maxMinutes)))
    else
      let next := synthLoop speak maxMinutes rest (i + 1) total (acc ++ [d])
      (next.1 + 1, next.2)

/-- `synthesize(text, voice, out_path, bitrate, max_minutes, dry_run)`.
`env` models the `OPENAI_API_KEY` environment variable read by
`check_openai_api_key` (absent, or its string value); `speak` models the
external synthesis capability.  Dry-run short-circuits before any validation;
normal mode validates the key, chunks with the defaults, runs the loop, and
only on success exports the file and returns its bytes. -/
def synthesize (env : Option Str) (speak : Str → Nat) (text : Str)
    (voice : String) (maxMinutes : Nat) (dryRun : Bool) : SynthOutcome :=
  if dryRun then
    { result := Except.ok (SynthReturn.estimation (estimateTts text voice "gpt-4o-mini-tts"))
      fileWritten := false
      processedChunks := 0 }
  else
    match env with
    | none =>
      { result := Except.error (PyError.validationError
          "TTS initialization failed: OPENAI_API_KEY environment variable is not set")
        fileWritten := false
        processedChunks := 0 }
    | some key =>
      if !(List.isPrefixOf "sk-".toList key) then
        { result := Except.error (PyError.validationError
            "TTS initialization failed: OPENAI_API_KEY appears to be invalid (should start with 'sk-')")
          fileWritten := false
          processedChunks := 0 }
      else
        let chunks := chunkText text 3500 "smart"
        let run := synthLoop speak maxMinutes chunks 0 0 []
        match run.2.2 with
        | Except.error e =>
          { result := Except.error e, fileWritten := false, processedChunks := run.1 }
        | Except.ok _ =>
          { result := Except.ok (SynthReturn.audioBytes run.2.1)
            fileWritten := true
            processedChunks := run.1 }

/-- Shorthand for turning a string literal into its character list. -/
def ofS (s : String) : Str := s.toList

/-- A chunk is emitted in trimmed form and is not empty or whitespace-only. -/
def GoodChunk (c : Str) : Prop := c ≠ [] ∧ strip c = c

/-- Is the surfaced result a `TTSLengthError`? -/
def isLengthError : Except PyError SynthReturn → Bool
  | Except.error (PyError.ttsLength _) => true
  | _ => false

/-- Is the surfaced result a `ValidationError`? -/
def isValidationError : Except PyError SynthReturn → Bool
  | Except.error (PyError.validationError _) => true
  | _ => false

/-- Join chunks with single spaces (`" ".join(chunks)`), as in the spec's
reconstruction property. -/
def joinSp : List Str → Str
  | [] => []
  | [c] => c
  | c :: cs => c ++ ' ' :: joinSp cs

/-- Helper: `pyRoundTo 0 n = 0`. -/
theorem pyRoundTo_zero (n : Nat) : pyRoundTo 0 n = 0 := by
  unfold pyRoundTo pyRoundInt
  norm_num

/-- C1: the claimed bound `len(chunk) ≤ max_chars` fails on the code.  With
`text = "aaaa.bbbb"`, `max_chars = 4`, strategy `"paragraph"`, the backward
scan of `_find_safe_break_point` starts at index `min(max_chars, len-1) = 4`,
finds the sentence terminator there and returns `i + 1 = 5`, so the first
emitted chunk is `"aaaa."` of length `5 > 4`.  (The forced hard break itself
does occur at `max_chars`, but the sentence/comma break can land one past it.) -/
theorem chunkText_exceeds_max_chars :
    chunkText (ofS "aaaa.bbbb") 4 "paragraph" = [ofS "aaaa.", ofS "bbbb"] ∧
      (ofS "aaaa.").length = 5 := by decide

/-- C4: the claimed abbreviation guard does not protect `"Dr."`.  The guard
fires only when the character *immediately before* the terminator is uppercase
(`text[i-1].isupper()`); before the period of `"Dr."` stands the lowercase
`'r'`, so with `max_chars = 12` the code breaks immediately after `"Dr."` —
the first chunk is exactly `"Contact Dr."`, contradicting both the claim and
the code's own comment (which lists "Mr.", "Dr." as protected). -/
theorem chunkText_breaks_after_Dr :
    chunkText (ofS "Contact Dr. Smith for details. He will reply soon.") 12 "paragraph" =
      [ofS "Contact Dr.", ofS "Smith for", ofS "details.", ofS "He will", ofS "reply soon."] := by
  decide

/-- C5: dry-run equivalence.  For every environment, synthesis stub, text,
voice and minute budget, `synthesize(..., dry_run=True)` returns exactly the
report of `estimate_tts(text, voice)` (the estimation shape, not audio bytes),
writes no file, and processes no chunks. -/
theorem synthesize_dry_run_eq_estimate (env : Option Str) (speak : Str → Nat)
    (text : Str) (voice : String) (maxMinutes : Nat) :
    synthesize env speak text voice maxMinutes true =
      { result := Except.ok (SynthReturn.estimation (estimateTts text voice "gpt-4o-mini-tts"))
        fileWritten := false
        processedChunks := 0 } := rfl

/-- C10: the dry-run short-circuit precedes credential validation, so the
dry-run outcome is the estimation report regardless of the `OPENAI_API_KEY`
environment variable (absent or malformed included) and can never be a
validation (credential) error. -/
theorem synthesize_dry_run_skips_validation (env : Option Str) (speak : Str → Nat)
    (text : Str) (voice : String) (maxMinutes : Nat) :
    (synthesize env speak text voice maxMinutes true).result =
        Except.ok (SynthReturn.estimation (estimateTts text voice "gpt-4o-mini-tts")) ∧
      isValidationError (synthesize env speak text voice maxMinutes true).result = false ∧
      synthesize env speak text voice maxMinutes true =
        synthesize none speak text voice maxMinutes true :=
  ⟨rfl, rfl, rfl⟩

/-- C9: empty input.  `chunk_text("")` is empty for every strategy and every
`max_chars`, and all numeric fields of `estimate_tts("")` are zero. -/
theorem empty_input_all_zero (maxChars : Nat) (strategy voice model : String) :
    chunkText [] maxChars strategy = [] ∧
      (estimateTts [] voice model).total_characters = 0 ∧
      (estimateTts [] voice model).total_words = 0 ∧
      (estimateTts [] voice model).num_chunks = 0 ∧
      (estimateTts [] voice model).avg_chunk_size = 0 ∧
      (estimateTts [] voice model).estimated_minutes = 0 ∧
      (estimateTts [] voice model).estimated_cost_usd = 0 := by
  refine ⟨?_, rfl, rfl, rfl, ?_, ?_, ?_⟩
  · unfold chunkText
    by_cases h1 : strategy = "paragraph" <;> by_cases h2 : strategy = "sentence" <;>
      simp only [h1, h2, if_true, if_false] <;> rfl
  · exact pyRoundTo_zero 1
  · show pyRoundTo (((0 : Nat) : ℚ) / 150) 1 = 0
    norm_num [pyRoundTo_zero]
  · show pyRoundTo (((0 : Nat) : ℚ) / 1000 * pricingGet model) 4 = 0
    norm_num [pyRoundTo_zero]

/-- Helper: Python `round` lands within one half of the true value. -/
theorem pyRoundInt_close (x : ℚ) : |(pyRoundInt x : ℚ) - x| ≤ 1 / 2 := by
  have h0 : (⌊x⌋ : ℚ) ≤ x := Int.floor_le x
  have h1 : x < ⌊x⌋ + 1 := Int.lt_floor_add_one x
  unfold pyRoundInt
  split_ifs with hc1 hc2 hc3 <;> push_cast <;> rw [abs_le] <;>
    constructor <;> linarith

/-- Helper: rounding to `n` decimal digits moves a rational by at most
`1 / (2 * 10 ^ n)`. -/
theorem pyRoundTo_close (q : ℚ) (n : Nat) :
    |pyRoundTo q n - q| ≤ 1 / (2 * 10 ^ n) := by
  have hs : (0 : ℚ) < 10 ^ n := by positivity
  have h := pyRoundInt_close (q * 10 ^ n)
  unfold pyRoundTo
  have heq : (pyRoundInt (q * 10 ^ n) : ℚ) / 10 ^ n - q =
      ((pyRoundInt (q * 10 ^ n) : ℚ) - q * 10 ^ n) / 10 ^ n := by
    field_simp
    ring
  rw [heq, abs_div, abs_of_pos hs, div_le_div_iff₀ hs (by positivity)]
  calc |(pyRoundInt (q * 10 ^ n) : ℚ) - q * 10 ^ n| * (2 * 10 ^ n)
      ≤ (1 / 2) * (2 * 10 ^ n) := by
        apply mul_le_mul_of_nonneg_right h (by positivity)
    _ = 1 * 10 ^ n := by ring

/-- C7: cost formula.  The reported cost is exactly Python's 4-digit rounding
of `(N / 1000) * rate[model]` where `N` is the normalized character count, so
it differs from the exact formula by at most `1/20000`; an unrecognized model
falls back to the rate of `"gpt-4o-mini-tts"`, `0.00015` USD per 1K
characters. -/
theorem estimate_cost_formula (text : Str) (voice model : String) :
    (estimateTts text voice model).estimated_cost_usd =
        pyRoundTo (((cleanText text).length : ℚ) / 1000 * pricingGet model) 4 ∧
      |(estimateTts text voice model).estimated_cost_usd -
          ((cleanText text).length : ℚ) / 1000 * pricingGet model| ≤ 1 / 20000 ∧
      (model ≠ "gpt-4o-mini-tts" → pricingGet model = 15 / 100000) := by
  refine ⟨rfl, ?_, ?_⟩
  · have h := pyRoundTo_close (((cleanText text).length : ℚ) / 1000 * pricingGet model) 4
    have he : (estimateTts text voice model).estimated_cost_usd =
        pyRoundTo (((cleanText text).length : ℚ) / 1000 * pricingGet model) 4 := rfl
    rw [he]
    calc |pyRoundTo (((cleanText text).length : ℚ) / 1000 * pricingGet model) 4 -
            ((cleanText text).length : ℚ) / 1000 * pricingGet model|
        ≤ 1 / (2 * 10 ^ 4) := h
      _ ≤ 1 / 20000 := by norm_num
  · intro hm
    have hd : decide ("gpt-4o-mini-tts" = model) = false :=
      decide_eq_false fun h => hm h.symm
    unfold pricingGet TTS_PRICING
    simp [List.find?, hd]

/-- Witness for C7 at a concrete input: a two-character text with an unknown
model uses the fallback rate. -/
theorem estimate_cost_formula_witness :
    (estimateTts (ofS "ab") "alloy" "mystery").estimated_cost_usd =
        pyRoundTo (((cleanText (ofS "ab")).length : ℚ) / 1000 * pricingGet "mystery") 4 ∧
      pricingGet "mystery" = 15 / 100000 :=
  ⟨(estimate_cost_formula (ofS "ab") "alloy" "mystery").1,
    (estimate_cost_formula (ofS "ab") "alloy" "mystery").2.2 (by decide)⟩

/-- C2 counterexample: with `text = "abcdef"`, `max_chars = 3` (smart
strategy), the forced hard break splits the single word `"abcdef"` into
`"abc"` and `"def"`: the word sequence of the joined chunks differs from the
word sequence of the normalized input, so a word is lost (and two new ones
appear). -/
theorem reconstruction_fails_on_forced_break :
    chunkText (ofS "abcdef") 3 "smart" = [ofS "abc", ofS "def"] ∧
      pyWords (joinSp (chunkText (ofS "abcdef") 3 "smart")) = [ofS "abc", ofS "def"] ∧
      pyWords (cleanText (ofS "abcdef")) = [ofS "abcdef"] ∧
      ((pyWords (joinSp (chunkText (ofS "abcdef") 3 "smart")) ==
        pyWords (cleanText (ofS "abcdef"))) = false) := by decide

/-- C3 counterexample: with a stub synthesis capability returning 120000 ms
(2 minutes) per chunk and `max_minutes = 1`, the run does abort after the
first chunk with no file written — but the surfaced error is the generic
chunk-indexed wrapper (the `raise TTSLengthError` sits inside the `try` whose
blanket `except Exception` re-wraps it), not the length-exceeded kind, and its
message carries only the limit, not the measured total. -/
theorem length_abort_surfaces_generic_error :
    synthesize (some (ofS "sk-test")) (fun _ => 120000) (ofS "Hello world") "alloy" 1 false =
        { result := Except.error (PyError.genericError
            "TTS request failed for chunk 1: Exceeded max minutes: 1")
          fileWritten := false
          processedChunks := 1 } ∧
      isLengthError
        (synthesize (some (ofS "sk-test")) (fun _ => 120000) (ofS "Hello world") "alloy" 1 false).result
        = false := by decide

/-- C6 counterexample: `_clean_text` collapses only runs of space characters
(`re.sub(r" +", " ")`); a run of tabs passes through unchanged instead of
becoming a single space as the claim ("spaces and tabs alike") requires. -/
theorem cleanText_preserves_tab_runs :
    cleanText (ofS "a\t\tb") = ofS "a\t\tb" ∧
      ((cleanText (ofS "a\t\tb") == ofS "a b") = false) := by decide

/-! ### Properties of `strip` -/

/-- A string with no leading and no trailing whitespace. -/
def Stripped (l : Str) : Prop :=
  (∀ c ∈ l.head?, pyIsSpace c = false) ∧ (∀ c ∈ l.getLast?, pyIsSpace c = false)

/-- Nothing at the head of `dropWhile p` satisfies `p`. -/
theorem head_dropWhile_not {p : Char → Bool} :
    ∀ l : Str, ∀ c ∈ (l.dropWhile p).head?, p c = false := by
  intro l
  induction l with
  | nil => intro c hc; simp at hc
  | cons a t ih =>
    intro c hc
    rw [List.dropWhile_cons] at hc
    by_cases hpa : p a = true
    · exact ih c (by simpa [hpa] using hc)
    · simp [hpa] at hc
      simp [hc ▸ (Bool.not_eq_true _).mp hpa]

/-- `dropTrailing` removes an all-whitespace tail. -/
theorem dropTrailing_decomp (l : Str) :
    ∃ w : Str, l = dropTrailing l ++ w ∧ ∀ c ∈ w, pyIsSpace c = true := by
  refine ⟨(l.reverse.takeWhile pyIsSpace).reverse, ?_, ?_⟩
  · have h := List.takeWhile_append_dropWhile pyIsSpace l.reverse
    calc l = l.reverse.reverse := (List.reverse_reverse l).symm
      _ = (List.takeWhile pyIsSpace l.reverse ++ List.dropWhile pyIsSpace l.reverse).reverse := by
          rw [h]
      _ = dropTrailing l ++ (l.reverse.takeWhile pyIsSpace).reverse := by
          rw [List.reverse_append]; rfl
  · intro c hc
    exact List.mem_takeWhile_imp (List.mem_reverse.mp hc)

/-- Decomposition of a string around its `strip`: an all-whitespace head and
an all-whitespace tail. -/
theorem strip_decomp (l : Str) :
    ∃ u v : Str, l = u ++ strip l ++ v ∧
      (∀ c ∈ u, pyIsSpace c = true) ∧ (∀ c ∈ v, pyIsSpace c = true) := by
  obtain ⟨w, hw, hwall⟩ := dropTrailing_decomp (l.dropWhile pyIsSpace)
  refine ⟨l.takeWhile pyIsSpace, w, ?_, ?_, hwall⟩
  · conv_lhs => rw [← List.takeWhile_append_dropWhile pyIsSpace l, hw]
    rw [List.append_assoc]
    rfl
  · intro c hc; exact List.mem_takeWhile_imp hc

/-- The result of `strip` has no leading or trailing whitespace. -/
theorem stripped_strip (l : Str) : Stripped (strip l) := by
  constructor
  · intro c hc
    obtain ⟨w, hw, -⟩ := dropTrailing_decomp (l.dropWhile pyIsSpace)
    have hh : (strip l).head? = some c := hc
    have : (l.dropWhile pyIsSpace).head? = some c := by
      rw [hw, List.head?_append]
      show (List.head? (strip l)).or (List.head? w) = some c
      rw [hh]; rfl
    exact head_dropWhile_not l c this
  · intro c hc
    have : ((l.dropWhile pyIsSpace).reverse.dropWhile pyIsSpace).head? = some c := by
      have : (strip l).getLast? = some c := hc
      rwa [show strip l = ((l.dropWhile pyIsSpace).reverse.dropWhile pyIsSpace).reverse from rfl,
        List.getLast?_reverse] at this
    exact head_dropWhile_not _ c this

/-- `strip` fixes a string that is already stripped. -/
theorem strip_eq_self {l : Str} (h : Stripped l) : strip l = l := by
  have h1 : l.dropWhile pyIsSpace = l := by
    cases l with
    | nil => rfl
    | cons a t =>
      have := h.1 a (by rfl)
      rw [List.dropWhile_cons, this]
      simp
  have h2 : l.reverse.dropWhile pyIsSpace = l.reverse := by
    cases hrev : l.reverse with
    | nil => rfl
    | cons a t =>
      have ha : l.getLast? = some a := by
        rw [← List.head?_reverse, hrev]; rfl
      have := h.2 a ha
      rw [List.dropWhile_cons, this]
      simp
  show dropTrailing (l.dropWhile pyIsSpace) = l
  rw [h1]
  show (l.reverse.dropWhile pyIsSpace).reverse = l
  rw [h2, List.reverse_reverse]

/-- `strip` is idempotent. -/
theorem strip_idem (l : Str) : strip (strip l) = strip l :=
  strip_eq_self (stripped_strip l)

/-- A string containing a non-whitespace character does not strip to empty. -/
theorem strip_ne_nil {l : Str} (h : ∃ c ∈ l, pyIsSpace c = false) : strip l ≠ [] := by
  intro hnil
  obtain ⟨c, hc, hcp⟩ := h
  obtain ⟨u, v, hl, hu, hv⟩ := strip_decomp l
  rw [hnil] at hl
  simp only [List.append_nil] at hl
  rw [hl] at hc
  rcases List.mem_append.mp hc with h' | h'
  · rw [hu c h'] at hcp; cases hcp
  · rw [hv c h'] at hcp; cases hcp

/-- A nonempty stripped string starts with a non-whitespace character. -/
theorem stripped_head {l : Str} (h : Stripped l) (hne : l ≠ []) :
    ∃ c t, l = c :: t ∧ pyIsSpace c = false := by
  cases l with
  | nil => exact absurd rfl hne
  | cons a t => exact ⟨a, t, rfl, h.1 a rfl⟩

/-! ### Chunk goodness: every emitted chunk is nonempty and trimmed (C8) -/

/-- Accumulator invariant: empty, or starting with a non-whitespace character. -/
def HeadOk (cur : Str) : Prop := ∀ c ∈ cur.head?, pyIsSpace c = false

theorem headOk_nil : HeadOk [] := by intro c hc; simp at hc

theorem headOk_of_stripped {p : Str} (h : Stripped p) : HeadOk p := h.1

/-- Stripping a nonempty accumulator with a non-whitespace head yields a good
chunk. -/
theorem good_strip_of_headOk {cur : Str} (h : HeadOk cur) (hne : cur ≠ []) :
    strip cur ≠ [] ∧ Stripped (strip cur) := by
  cases cur with
  | nil => exact absurd rfl hne
  | cons a t =>
    exact ⟨strip_ne_nil ⟨a, List.mem_cons_self a t, h a rfl⟩, stripped_strip _⟩

/-- A nonempty accumulator keeps its head under appending. -/
theorem headOk_append_of_ne {cur : Str} (x : Str) (h : HeadOk cur) (hne : cur ≠ []) :
    HeadOk (cur ++ x) := by
  cases cur with
  | nil => exact absurd rfl hne
  | cons a t =>
    intro c hc
    have hca : a = c := by
      rw [List.cons_append] at hc
      simpa using hc
    rw [← hca]
    exact h a rfl

theorem splitLongF_good (m : Nat) :
    ∀ (fuel : Nat) (para : Str), Stripped para →
      ∀ c ∈ splitLongF m fuel para, c ≠ [] ∧ Stripped c := by
  intro fuel
  induction fuel with
  | zero =>
    intro para hst c hc
    cases para with
    | nil => simp [splitLongF] at hc
    | cons a t =>
      simp only [splitLongF, List.mem_singleton] at hc
      subst hc
      rw [strip_eq_self hst]
      exact ⟨List.cons_ne_nil a t, hst⟩
  | succ fuel ih =>
    intro para hst c hc
    cases para with
    | nil => simp [splitLongF] at hc
    | cons a t =>
      by_cases hbp : findSafeBreakPoint (a :: t) m 0 = 0
      · simp [splitLongF, hbp] at hc
        rcases hc with rfl
        rw [strip_eq_self hst]
        exact ⟨List.cons_ne_nil a t, hst⟩
      · simp only [splitLongF, hbp, if_false, List.mem_cons] at hc
        rcases hc with rfl | hc
        · refine ⟨strip_ne_nil ⟨a, ?_, hst.1 a rfl⟩, stripped_strip _⟩
          cases hbp2 : findSafeBreakPoint (a :: t) m 0 with
          | zero => exact absurd hbp2 hbp
          | succ k => rw [List.take_succ_cons]; exact List.mem_cons_self _ _
        · exact ih (strip ((a :: t).drop (findSafeBreakPoint (a :: t) m 0)))
            (stripped_strip _) c hc

theorem splitIntoParagraphsGo_good :
    ∀ (lines : List Str) (cur : Str), HeadOk cur →
      ∀ p ∈ splitIntoParagraphsGo cur lines, p ≠ [] ∧ Stripped p := by
  intro lines
  induction lines with
  | nil =>
    intro cur hcur p hp
    by_cases hc : cur.isEmpty
    · simp [splitIntoParagraphsGo, hc] at hp
    · simp [splitIntoParagraphsGo, hc] at hp
      rcases hp with rfl
      exact good_strip_of_headOk hcur (by simpa [List.isEmpty_iff] using hc)
  | cons line rest ih =>
    intro cur hcur p hp
    by_cases hl : (strip line).isEmpty
    · by_cases hc : cur.isEmpty
      · simp [splitIntoParagraphsGo, hl, hc] at hp
        exact ih [] headOk_nil p hp
      · simp [splitIntoParagraphsGo, hl, hc] at hp
        rcases hp with rfl | hp
        · exact good_strip_of_headOk hcur (by simpa [List.isEmpty_iff] using hc)
        · exact ih [] headOk_nil p hp
    · simp [splitIntoParagraphsGo, hl] at hp
      refine ih (cur ++ (strip line ++ [' '])) ?_ p hp
      by_cases hc : cur.isEmpty
      · have hcnil : cur = [] := List.isEmpty_iff.mp hc
        subst hcnil
        rw [List.nil_append]
        have hsl : strip line ≠ [] := fun h => by simp [h] at hl
        exact headOk_append_of_ne [' '] (headOk_of_stripped (stripped_strip line)) hsl
      · exact headOk_append_of_ne _ hcur (by simpa [List.isEmpty_iff] using hc)

theorem splitIntoParagraphs_good (t : Str) :
    ∀ p ∈ splitIntoParagraphs t, p ≠ [] ∧ Stripped p :=
  splitIntoParagraphsGo_good (splitLines t) [] headOk_nil

theorem chunkByParagraphs_good (t : Str) (m : Nat) :
    ∀ c ∈ chunkByParagraphs t m, c ≠ [] ∧ Stripped c := by
  intro c hc
  unfold chunkByParagraphs at hc
  rw [List.mem_flatMap] at hc
  obtain ⟨para, hpm, hc⟩ := hc
  have hpara := splitIntoParagraphs_good t para hpm
  by_cases hle : para.length ≤ m
  · simp [hle] at hc
    rcases hc with rfl
    exact hpara
  · simp [hle] at hc
    exact splitLongF_good m _ para hpara.2 c hc

theorem chunkSmartGo_good (m : Nat) :
    ∀ (paras : List Str) (cur : Str),
      (∀ p ∈ paras, p ≠ [] ∧ Stripped p) → HeadOk cur →
      ∀ c ∈ chunkSmartGo m cur paras, c ≠ [] ∧ Stripped c := by
  intro paras
  induction paras with
  | nil =>
    intro cur hps hcur c hc
    by_cases hs : (strip cur).isEmpty
    · simp [chunkSmartGo, hs] at hc
    · simp [chunkSmartGo, hs] at hc
      rcases hc with rfl
      exact ⟨by simpa [List.isEmpty_iff] using hs, stripped_strip _⟩
  | cons para rest ih =>
    intro cur hps hcur c hc
    have hpara := hps para (List.mem_cons_self _ _)
    have hrest : ∀ p ∈ rest, p ≠ [] ∧ Stripped p :=
      fun p hp => hps p (List.mem_cons_of_mem _ hp)
    have hgoodcur : cur ≠ [] → (strip cur ≠ [] ∧ Stripped (strip cur)) :=
      fun hne => good_strip_of_headOk hcur hne
    have hsplitgood : ∀ c2 ∈ splitLong m para, c2 ≠ [] ∧ Stripped c2 :=
      fun c2 hc2 => splitLongF_good m _ para hpara.2 c2 hc2
    by_cases hcure : cur.isEmpty
    · have hcnil : cur = [] := List.isEmpty_iff.mp hcure
      subst hcnil
      by_cases hlong : m < para.length
      · simp [chunkSmartGo, hlong] at hc
        rcases hc with hc | hc
        · exact hsplitgood c hc
        · exact ih [] hrest headOk_nil c hc
      · simp [chunkSmartGo, hlong] at hc
        exact ih para hrest (headOk_of_stripped hpara.2) c hc
    · have hcne : cur ≠ [] := by simpa [List.isEmpty_iff] using hcure
      by_cases hflush : m < cur.length + para.length + 1
      · by_cases hlong : m < para.length
        · simp [chunkSmartGo, hcure, hflush, hlong] at hc
          rcases hc with rfl | hc | hc
          · exact hgoodcur hcne
          · exact hsplitgood c hc
          · exact ih [] hrest headOk_nil c hc
        · simp [chunkSmartGo, hcure, hflush, hlong] at hc
          rcases hc with rfl | hc
          · exact hgoodcur hcne
          · exact ih para hrest (headOk_of_stripped hpara.2) c hc
      · by_cases hlong : m < para.length
        · simp [chunkSmartGo, hcure, hflush, hlong] at hc
          rcases hc with rfl | hc | hc
          · exact hgoodcur hcne
          · exact hsplitgood c hc
          · exact ih [] hrest headOk_nil c hc
        · simp [chunkSmartGo, hcure, hflush, hlong] at hc
          exact ih (cur ++ ' ' :: para) hrest
            (headOk_append_of_ne _ hcur hcne) c hc

theorem chunkBySentencesGo_good (m : Nat) :
    ∀ (sents : List Str) (cur : Str), HeadOk cur →
      ∀ c ∈ chunkBySentencesGo m cur sents, c ≠ [] ∧ Stripped c := by
  intro sents
  induction sents with
  | nil =>
    intro cur hcur c hc
    by_cases hs : (strip cur).isEmpty
    · simp [chunkBySentencesGo, hs] at hc
    · simp [chunkBySentencesGo, hs] at hc
      rcases hc with rfl
      exact ⟨by simpa [List.isEmpty_iff] using hs, stripped_strip _⟩
  | cons s0 rest ih =>
    intro cur hcur c hc
    by_cases hse : (strip s0).isEmpty
    · simp [chunkBySentencesGo, hse] at hc
      exact ih cur hcur c hc
    · have hsgood : Stripped (strip s0) := stripped_strip _
      have hgoodcur : cur ≠ [] → (strip cur ≠ [] ∧ Stripped (strip cur)) :=
        fun hne => good_strip_of_headOk hcur hne
      have hsplitgood : ∀ c2 ∈ splitLong m (strip s0), c2 ≠ [] ∧ Stripped c2 :=
        fun c2 hc2 => splitLongF_good m _ (strip s0) hsgood c2 hc2
      by_cases hcure : cur.isEmpty
      · have hcnil : cur = [] := List.isEmpty_iff.mp hcure
        subst hcnil
        by_cases hlong : m < (strip s0).length
        · simp [chunkBySentencesGo, hse, hlong] at hc
          rcases hc with hc | hc
          · exact hsplitgood c hc
          · exact ih [] headOk_nil c hc
        · simp [chunkBySentencesGo, hse, hlong] at hc
          exact ih (strip s0) (headOk_of_stripped hsgood) c hc
      · have hcne : cur ≠ [] := by simpa [List.isEmpty_iff] using hcure
        by_cases hflush : m < cur.length + (strip s0).length + 1
        · by_cases hlong : m < (strip s0).length
          · simp [chunkBySentencesGo, hse, hcure, hflush, hlong] at hc
            rcases hc with rfl | hc | hc
            · exact hgoodcur hcne
            · exact hsplitgood c hc
            · exact ih [] headOk_nil c hc
          · simp [chunkBySentencesGo, hse, hcure, hflush, hlong] at hc
            rcases hc with rfl | hc
            · exact hgoodcur hcne
            · exact ih (strip s0) (headOk_of_stripped hsgood) c hc
        · by_cases hlong : m < (strip s0).length
          · simp [chunkBySentencesGo, hse, hcure, hflush, hlong] at hc
            rcases hc with rfl | hc | hc
            · exact hgoodcur hcne
            · exact hsplitgood c hc
            · exact ih [] headOk_nil c hc
          · simp [chunkBySentencesGo, hse, hcure, hflush, hlong] at hc
            exact ih (cur ++ ' ' :: strip s0)
              (headOk_append_of_ne _ hcur hcne) c hc

/-- C8: for every input text, every positive `max_chars` and every strategy,
no chunk returned by `chunk_text` is empty or whitespace-only, and every chunk
is already trimmed (`strip` fixes it; a nonempty string fixed by `strip` is
not whitespace-only). -/
theorem chunkText_chunks_good (text : Str) (maxChars : Nat) (strategy : String)
    (hpos : 0 < maxChars) :
    ∀ c ∈ chunkText text maxChars strategy, c ≠ [] ∧ strip c = c := by
  intro c hc
  have conv : c ≠ [] ∧ Stripped c → c ≠ [] ∧ strip c = c :=
    fun h => ⟨h.1, strip_eq_self h.2⟩
  unfold chunkText at hc
  by_cases h1 : strategy = "paragraph"
  · simp only [h1, if_true] at hc
    exact conv (chunkByParagraphs_good _ _ c hc)
  · by_cases h2 : strategy = "sentence"
    · simp only [h1, h2, if_true, if_false] at hc
      exact conv (chunkBySentencesGo_good maxChars _ [] headOk_nil c hc)
    · simp only [h1, h2, if_false] at hc
      exact conv (chunkSmartGo_good maxChars _ []
        (splitIntoParagraphs_good _) headOk_nil c hc)

/-- Witness for C8 at a concrete input. -/
theorem chunkText_chunks_good_witness :
    0 < 3500 ∧ (ofS "Hello" ≠ [] ∧ strip (ofS "Hello") = ofS "Hello") :=
  ⟨by decide,
    chunkText_chunks_good (ofS "Hello") 3500 "smart" (by decide) (ofS "Hello") (by decide)⟩

/-! ### Word-sequence preservation (C2, amended) -/

/-- Splitting off words at a whitespace character: the words of
`a ++ c :: b` (with `c` whitespace) are the words of `a` then the words of
`b`, at any accumulator state. -/
theorem wordsGo_append_ws {c : Char} (hc : pyIsSpace c = true) (b : Str) :
    ∀ (s cur : Str), wordsGo cur (s ++ c :: b) = wordsGo cur s ++ pyWords b := by
  intro s
  induction s with
  | nil =>
    intro cur
    by_cases hcur : cur.isEmpty
    · simp [wordsGo, hc, hcur, pyWords]
    · simp [wordsGo, hc, hcur, pyWords]
  | cons d s ih =>
    intro cur
    by_cases hd : pyIsSpace d
    · by_cases hcur : cur.isEmpty
      · simp [wordsGo, hd, hcur, ih]
      · simp [wordsGo, hd, hcur, ih]
    · simp [wordsGo, hd, ih]

/-- Words of `a ++ c :: b` for whitespace `c`. -/
theorem words_append_ws {c : Char} (hc : pyIsSpace c = true) (a b : Str) :
    pyWords (a ++ c :: b) = pyWords a ++ pyWords b :=
  wordsGo_append_ws hc b a []

/-- An all-whitespace string has no words. -/
theorem words_all_ws : ∀ {w : Str}, (∀ c ∈ w, pyIsSpace c = true) → pyWords w = [] := by
  intro w
  induction w with
  | nil => intro _; rfl
  | cons c w ih =>
    intro h
    have hc := h c (List.mem_cons_self _ _)
    show wordsGo [] (c :: w) = []
    simp only [wordsGo, hc, if_true, List.isEmpty_nil]
    exact ih fun d hd => h d (List.mem_cons_of_mem _ hd)

/-- An all-whitespace suffix contributes no words. -/
theorem words_append_ws_right {w : Str} (hw : ∀ c ∈ w, pyIsSpace c = true) (l : Str) :
    pyWords (l ++ w) = pyWords l := by
  induction w generalizing l with
  | nil => rw [List.append_nil]
  | cons c w ih =>
    have hc := hw c (List.mem_cons_self _ _)
    rw [words_append_ws hc l w, words_all_ws fun d hd => hw d (List.mem_cons_of_mem _ hd),
      List.append_nil]

/-- An all-whitespace head contributes no words. -/
theorem words_append_ws_left {u : Str} (hu : ∀ c ∈ u, pyIsSpace c = true) (l : Str) :
    pyWords (u ++ l) = pyWords l := by
  induction u with
  | nil => rfl
  | cons c u ih =>
    have hc := hu c (List.mem_cons_self _ _)
    show wordsGo [] (c :: (u ++ l)) = pyWords l
    simp only [wordsGo, hc, if_true, List.isEmpty_nil]
    exact ih fun d hd => hu d (List.mem_cons_of_mem _ hd)

/-- Stripping surrounding whitespace does not change the words. -/
theorem words_strip (l : Str) : pyWords (strip l) = pyWords l := by
  obtain ⟨u, v, hl, hu, hv⟩ := strip_decomp l
  conv_rhs => rw [hl]
  rw [List.append_assoc, words_append_ws_left hu, words_append_ws_right hv]

/-- The words of space-joined chunks are the concatenated per-chunk words. -/
theorem words_joinSp : ∀ l : List Str,
    pyWords (joinSp l) = (l.map pyWords).flatten := by
  intro l
  induction l with
  | nil => rfl
  | cons c cs ih =>
    cases cs with
    | nil => simp [joinSp]
    | cons c2 cs2 =>
      rw [show joinSp (c :: c2 :: cs2) = c ++ ' ' :: joinSp (c2 :: cs2) from rfl,
        words_append_ws (show pyIsSpace ' ' = true from rfl), ih]
      simp

/-- Splitting on newlines preserves the word sequence. -/
theorem splitLinesGo_words :
    ∀ (s cur : Str),
      ((splitLinesGo cur s).map pyWords).flatten = pyWords (cur.reverse ++ s) := by
  intro s
  induction s with
  | nil => intro cur; simp [splitLinesGo]
  | cons c rest ih =>
    intro cur
    by_cases hc : c = '\n'
    · subst hc
      simp only [splitLinesGo, if_true, List.map_cons, List.flatten_cons]
      rw [ih [], words_append_ws (show pyIsSpace '\n' = true from rfl) cur.reverse rest]
      rfl
    · simp only [splitLinesGo, hc, if_false]
      rw [ih (c :: cur)]
      simp

/-- The paragraph accumulator of `_split_into_paragraphs` preserves words:
the accumulator is empty or ends in the space appended after each line. -/
theorem splitIntoParagraphsGo_words :
    ∀ (lines : List Str) (cur : Str), (cur = [] ∨ ∃ y, cur = y ++ [' ']) →
      ((splitIntoParagraphsGo cur lines).map pyWords).flatten =
        pyWords cur ++ ((lines.map pyWords).flatten) := by
  intro lines
  induction lines with
  | nil =>
    intro cur hcur
    by_cases hc : cur.isEmpty
    · have : cur = [] := List.isEmpty_iff.mp hc
      subst this
      simp [splitIntoParagraphsGo, pyWords, wordsGo]
    · simp [splitIntoParagraphsGo, hc, words_strip]
  | cons line rest ih =>
    intro cur hcur
    have hline : pyWords line = pyWords (strip line) := (words_strip line).symm
    by_cases hl : (strip line).isEmpty
    · have hln : pyWords line = [] := by
        rw [hline, List.isEmpty_iff.mp hl]; rfl
      by_cases hc : cur.isEmpty
      · have : cur = [] := List.isEmpty_iff.mp hc
        subst this
        simp only [splitIntoParagraphsGo, hl, if_true, List.isEmpty_nil]
        rw [ih [] (Or.inl rfl)]
        simp [hln]
      · have hg : splitIntoParagraphsGo cur (line :: rest) =
            strip cur :: splitIntoParagraphsGo [] rest := by
          simp [splitIntoParagraphsGo, hl, hc]
        rw [hg]
        simp only [List.map_cons, List.flatten_cons]
        rw [ih [] (Or.inl rfl), words_strip]
        simp [hln, show (pyWords [] : List Str) = [] from rfl]
    · have hg : splitIntoParagraphsGo cur (line :: rest) =
          splitIntoParagraphsGo (cur ++ (strip line ++ [' '])) rest := by
        simp [splitIntoParagraphsGo, hl]
      rw [hg, ih (cur ++ (strip line ++ [' '])) (Or.inr ⟨cur ++ strip line, by simp⟩)]
      have hws : ∀ c ∈ ([' '] : Str), pyIsSpace c = true := by decide
      rcases hcur with rfl | ⟨y, rfl⟩
      · rw [List.nil_append, words_append_ws_right hws, ← hline]
        rfl
      · have h1 : (y ++ [' ']) ++ (strip line ++ [' ']) = y ++ ' ' :: (strip line ++ [' ']) := by
          simp
        rw [h1, words_append_ws (show pyIsSpace ' ' = true from rfl),
          words_append_ws_right hws, ← hline, words_append_ws_right hws y]
        simp [List.map_cons]

/-- `_split_into_paragraphs` preserves the word sequence. -/
theorem splitIntoParagraphs_words (t : Str) :
    ((splitIntoParagraphs t).map pyWords).flatten = pyWords t := by
  unfold splitIntoParagraphs
  rw [splitIntoParagraphsGo_words (splitLines t) [] (Or.inl rfl)]
  show pyWords [] ++ _ = _
  rw [show (pyWords [] : List Str) = [] from rfl, List.nil_append]
  exact splitLinesGo_words t []

/-- Smart packing preserves words when every paragraph fits in `maxChars`
(the safe break-point splitter is then never invoked). -/
theorem chunkSmartGo_words (m : Nat) :
    ∀ (paras : List Str) (cur : Str), (∀ p ∈ paras, p.length ≤ m) →
      ((chunkSmartGo m cur paras).map pyWords).flatten =
        pyWords cur ++ (paras.map pyWords).flatten := by
  intro paras
  induction paras with
  | nil =>
    intro cur _
    by_cases hs : (strip cur).isEmpty
    · have h0 : pyWords cur = [] := by
        rw [← words_strip cur, List.isEmpty_iff.mp hs]; rfl
      simp [chunkSmartGo, hs, h0]
    · simp [chunkSmartGo, hs, words_strip]
  | cons para rest ih =>
    intro cur hps
    have hpara : para.length ≤ m := hps para (List.mem_cons_self _ _)
    have hrest : ∀ p ∈ rest, p.length ≤ m :=
      fun p hp => hps p (List.mem_cons_of_mem _ hp)
    have hlong : ¬m < para.length := not_lt.mpr hpara
    by_cases hcure : cur.isEmpty
    · have hcnil : cur = [] := List.isEmpty_iff.mp hcure
      subst hcnil
      have hg : chunkSmartGo m [] (para :: rest) = chunkSmartGo m para rest := by
        simp [chunkSmartGo, hlong]
      rw [hg, ih para hrest]
      rfl
    · by_cases hflush : m < cur.length + para.length + 1
      · have hg : chunkSmartGo m cur (para :: rest) =
            strip cur :: chunkSmartGo m para rest := by
          simp [chunkSmartGo, hlong, hflush, hcure]
        rw [hg]
        simp only [List.map_cons, List.flatten_cons]
        rw [ih para hrest, words_strip]
      · have hg : chunkSmartGo m cur (para :: rest) =
            chunkSmartGo m (cur ++ ' ' :: para) rest := by
          simp [chunkSmartGo, hlong, hflush, hcure]
        rw [hg, ih (cur ++ ' ' :: para) hrest,
          words_append_ws (show pyIsSpace ' ' = true from rfl)]
        simp

/-- Sentence packing preserves words when every stripped sentence fits. -/
theorem chunkBySentencesGo_words (m : Nat) :
    ∀ (sents : List Str) (cur : Str), (∀ s ∈ sents, (strip s).length ≤ m) →
      ((chunkBySentencesGo m cur sents).map pyWords).flatten =
        pyWords cur ++ (sents.map pyWords).flatten := by
  intro sents
  induction sents with
  | nil =>
    intro cur _
    by_cases hs : (strip cur).isEmpty
    · have h0 : pyWords cur = [] := by
        rw [← words_strip cur, List.isEmpty_iff.mp hs]; rfl
      simp [chunkBySentencesGo, hs, h0]
    · simp [chunkBySentencesGo, hs, words_strip]
  | cons s0 rest ih =>
    intro cur hps
    have hs0 : (strip s0).length ≤ m := hps s0 (List.mem_cons_self _ _)
    have hrest : ∀ s ∈ rest, (strip s).length ≤ m :=
      fun s hs => hps s (List.mem_cons_of_mem _ hs)
    have hws0 : pyWords s0 = pyWords (strip s0) := (words_strip s0).symm
    by_cases hse : (strip s0).isEmpty
    · have h0 : pyWords s0 = [] := by rw [hws0, List.isEmpty_iff.mp hse]; rfl
      have hg : chunkBySentencesGo m cur (s0 :: rest) = chunkBySentencesGo m cur rest := by
        simp [chunkBySentencesGo, hse]
      rw [hg, ih cur hrest]
      simp [h0]
    · have hlong : ¬m < (strip s0).length := not_lt.mpr hs0
      by_cases hcure : cur.isEmpty
      · have hcnil : cur = [] := List.isEmpty_iff.mp hcure
        subst hcnil
        have hg : chunkBySentencesGo m [] (s0 :: rest) =
            chunkBySentencesGo m (strip s0) rest := by
          simp [chunkBySentencesGo, hse, hlong]
        rw [hg, ih (strip s0) hrest, ← hws0]
        rfl
      · by_cases hflush : m < cur.length + (strip s0).length + 1
        · have hg : chunkBySentencesGo m cur (s0 :: rest) =
              strip cur :: chunkBySentencesGo m (strip s0) rest := by
            simp [chunkBySentencesGo, hse, hlong, hflush, hcure]
          rw [hg]
          simp only [List.map_cons, List.flatten_cons]
          rw [ih (strip s0) hrest, words_strip, ← hws0]
        · have hg : chunkBySentencesGo m cur (s0 :: rest) =
              chunkBySentencesGo m (cur ++ ' ' :: strip s0) rest := by
            simp [chunkBySentencesGo, hse, hlong, hflush, hcure]
          rw [hg, ih (cur ++ ' ' :: strip s0) hrest,
            words_append_ws (show pyIsSpace ' ' = true from rfl), ← hws0]
          simp

/-- The sentence splitter (`re.split(r"(?<=[.!?])\s+", ...)`) preserves the
word sequence: split points consume only whitespace. -/
theorem splitSentencesGo_words :
    ∀ (s : Str) (inGap : Bool) (cur : Str), (inGap = true → cur = []) →
      ((splitSentencesGo inGap cur s).map pyWords).flatten =
        pyWords (cur.reverse ++ s) := by
  intro s
  induction s with
  | nil =>
    intro inGap cur _
    simp [splitSentencesGo]
  | cons c rest ih =>
    intro inGap cur hgap
    cases inGap with
    | true =>
      have hcnil : cur = [] := hgap rfl
      subst hcnil
      by_cases hc : pyIsSpace c
      · have hg : splitSentencesGo true [] (c :: rest) =
            splitSentencesGo true [] rest := by simp [splitSentencesGo, hc]
        rw [hg, ih true [] fun _ => rfl]
        simp only [List.reverse_nil, List.nil_append]
        show pyWords rest = pyWords (c :: rest)
        rw [show (c :: rest : Str) = [] ++ c :: rest from rfl,
          words_append_ws hc [] rest]
        rfl
      · have hg : splitSentencesGo true [] (c :: rest) =
            splitSentencesGo false [c] rest := by simp [splitSentencesGo, hc]
        rw [hg, ih false [c] fun h => by cases h]
        rfl
    | false =>
      by_cases hsplit : (pyIsSpace c && headSentenceEnd cur) = true
      · have hc : pyIsSpace c = true := ((Bool.and_eq_true _ _).mp hsplit).1
        have hun : splitSentencesGo false cur (c :: rest) =
            (if (pyIsSpace c && headSentenceEnd cur) = true
              then cur.reverse :: splitSentencesGo true [] rest
              else splitSentencesGo false (c :: cur) rest) := rfl
        have hg : splitSentencesGo false cur (c :: rest) =
            cur.reverse :: splitSentencesGo true [] rest := by
          rw [hun, if_pos hsplit]
        rw [hg]
        simp only [List.map_cons, List.flatten_cons]
        rw [ih true [] fun _ => rfl, words_append_ws hc cur.reverse rest]
        rfl
      · have hun : splitSentencesGo false cur (c :: rest) =
            (if (pyIsSpace c && headSentenceEnd cur) = true
              then cur.reverse :: splitSentencesGo true [] rest
              else splitSentencesGo false (c :: cur) rest) := rfl
        have hg : splitSentencesGo false cur (c :: rest) =
            splitSentencesGo false (c :: cur) rest := by
          rw [hun, if_neg hsplit]
        rw [hg, ih false (c :: cur) fun h => by cases h]
        simp

/-- `splitSentences` preserves the word sequence. -/
theorem splitSentences_words (t : Str) :
    ((splitSentences t).map pyWords).flatten = pyWords t :=
  splitSentencesGo_words t false [] fun h => by cases h

/-- `flatMap` with the per-paragraph splitter is the identity when every
element is short. -/
theorem flatMap_short_id (m : Nat) :
    ∀ ps : List Str, (∀ p ∈ ps, p.length ≤ m) →
      (ps.flatMap fun para => if para.length ≤ m then [para] else splitLong m para) = ps := by
  intro ps
  induction ps with
  | nil => intro _; rfl
  | cons p ps ih =>
    intro h
    rw [List.flatMap_cons, if_pos (h p (List.mem_cons_self _ _)),
      ih fun q hq => h q (List.mem_cons_of_mem _ hq)]
    rfl

/-- When every paragraph fits, the paragraph strategy returns exactly the
paragraph list. -/
theorem chunkByParagraphs_of_short (t : Str) (m : Nat)
    (h : ∀ p ∈ splitIntoParagraphs t, p.length ≤ m) :
    chunkByParagraphs t m = splitIntoParagraphs t :=
  flatMap_short_id m (splitIntoParagraphs t) h

/-- C2 (amended): joining all chunks with single spaces reproduces the word
sequence of the normalized input whenever the safe break-point splitter is
never invoked — i.e. every paragraph of the normalized input fits in
`max_chars` (used by the smart and paragraph strategies) and every stripped
sentence fits (used by the sentence strategy).  Without that proviso a
paragraph or sentence longer than `max_chars` may be broken inside a word. -/
theorem chunkText_reconstruction (text : Str) (maxChars : Nat) (strategy : String)
    (hpara : ∀ p ∈ splitIntoParagraphs (cleanText text), p.length ≤ maxChars)
    (hsent : ∀ s ∈ splitSentences (cleanText text), (strip s).length ≤ maxChars) :
    pyWords (joinSp (chunkText text maxChars strategy)) = pyWords (cleanText text) := by
  rw [words_joinSp]
  unfold chunkText
  by_cases h1 : strategy = "paragraph"
  · simp only [h1, if_true]
    rw [chunkByParagraphs_of_short _ _ hpara, splitIntoParagraphs_words]
  · by_cases h2 : strategy = "sentence"
    · simp only [h1, h2, if_true, if_false]
      rw [if_neg (show ¬(("sentence" : String) = "paragraph") by decide)]
      unfold chunkBySentences
      rw [chunkBySentencesGo_words maxChars (splitSentences (cleanText text)) [] hsent,
        splitSentences_words]
      rfl
    · simp only [h1, h2, if_false]
      unfold chunkSmart
      rw [chunkSmartGo_words maxChars _ [] hpara, splitIntoParagraphs_words]
      rfl

/-- Witness for the amended C2 at a concrete input. -/
theorem chunkText_reconstruction_witness :
    pyWords (joinSp (chunkText (ofS "Hello world. Bye now.") 3500 "sentence")) =
      pyWords (cleanText (ofS "Hello world. Bye now.")) :=
  chunkText_reconstruction (ofS "Hello world. Bye now.") 3500 "sentence"
    (by decide) (by decide)

/-! ### Length-ceiling abort (C3, amended) -/

/-- Offset of the first chunk whose appended duration pushes the running total
over `max_minutes` (starting from `totalMs`), if any. -/
def firstExceed (speak : Str → Nat) (maxMinutes : Nat) : List Str → Nat → Option Nat
  | [], _ => none
  | chunk :: rest, totalMs =>
    if 60000 * maxMinutes < totalMs + speak chunk then some 0
    else (firstExceed speak maxMinutes rest (totalMs + speak chunk)).map (· + 1)

/-- Behaviour of the synthesis loop when some prefix exceeds the limit: it
stops right after the first exceeding chunk and yields the generic wrapped
error for that chunk's index. -/
theorem synthLoop_exceed (speak : Str → Nat) (maxMinutes : Nat) :
    ∀ (chunks : List Str) (i totalMs : Nat) (acc : List Nat) (j : Nat),
      firstExceed speak maxMinutes chunks totalMs = some j →
      (synthLoop speak maxMinutes chunks i totalMs acc).1 = j + 1 ∧
        (synthLoop speak maxMinutes chunks i totalMs acc).2.2 =
          Except.error (PyError.genericError
            ("TTS request failed for chunk " ++ toString (i + j + 1) ++
              ": Exceeded max minutes: " ++ toString maxMinutes)) := by
  intro chunks
  induction chunks with
  | nil => intro i t acc j h; cases h
  | cons chunk rest ih =>
    intro i t acc j h
    have hun : synthLoop speak maxMinutes (chunk :: rest) i t acc =
        (if 60000 * maxMinutes < t + speak chunk then
          (1, acc ++ [speak chunk],
            Except.error (PyError.genericError
              ("TTS request failed for chunk " ++ toString (i + 1) ++
                ": Exceeded max minutes: " ++ toString maxMinutes)))
        else
          ((synthLoop speak maxMinutes rest (i + 1) (t + speak chunk)
              (acc ++ [speak chunk])).1 + 1,
            (synthLoop speak maxMinutes rest (i + 1) (t + speak chunk)
              (acc ++ [speak chunk])).2)) := rfl
    have hfe : firstExceed speak maxMinutes (chunk :: rest) t =
        (if 60000 * maxMinutes < t + speak chunk then some 0
          else (firstExceed speak maxMinutes rest (t + speak chunk)).map (· + 1)) := rfl
    by_cases hx : 60000 * maxMinutes < t + speak chunk
    · rw [hfe, if_pos hx] at h
      have hj : j = 0 := by
        have := Option.some.inj h
        omega
      subst hj
      rw [hun, if_pos hx]
      refine ⟨rfl, ?_⟩
      have : i + 0 + 1 = i + 1 := by omega
      rw [this]
    · rw [hfe, if_neg hx] at h
      obtain ⟨j2, hj2, hjeq⟩ := Option.map_eq_some'.mp h
      obtain ⟨ih1, ih2⟩ := ih (i + 1) (t + speak chunk) (acc ++ [speak chunk]) j2 hj2
      rw [hun, if_neg hx]
      constructor
      · simp only []
        omega
      · show (synthLoop speak maxMinutes rest (i + 1) (t + speak chunk)
            (acc ++ [speak chunk])).2.2 = _
        rw [ih2]
        have : i + 1 + j2 + 1 = i + j + 1 := by omega
        rw [this]

/-- C3 (amended): whenever the running total exceeds `max_minutes` after
appending some chunk, the run aborts right after the first exceeding chunk
(`j` is its zero-based index: exactly `j + 1` chunks are processed, the rest
are not) and no output file is written — but the surfaced error is the generic
chunk-indexed wrapper carrying only the limit, because the length-exceeded
`raise` is caught by the blanket `except Exception` of its own iteration. -/
theorem synthesize_length_abort (key : Str) (speak : Str → Nat) (text : Str)
    (voice : String) (maxMinutes j : Nat)
    (hkey : List.isPrefixOf "sk-".toList key = true)
    (hj : firstExceed speak maxMinutes (chunkText text 3500 "smart") 0 = some j) :
    synthesize (some key) speak text voice maxMinutes false =
      { result := Except.error (PyError.genericError
          ("TTS request failed for chunk " ++ toString (j + 1) ++
            ": Exceeded max minutes: " ++ toString maxMinutes))
        fileWritten := false
        processedChunks := j + 1 } := by
  obtain ⟨h1, h2⟩ :=
    synthLoop_exceed speak maxMinutes (chunkText text 3500 "smart") 0 0 [] j hj
  rw [show (0 : Nat) + j + 1 = j + 1 by omega] at h2
  have hun : synthesize (some key) speak text voice maxMinutes false =
      (if !(List.isPrefixOf "sk-".toList key) then
        { result := Except.error (PyError.validationError
            "TTS initialization failed: OPENAI_API_KEY appears to be invalid (should start with 'sk-')")
          fileWritten := false
          processedChunks := 0 }
      else
        match (synthLoop speak maxMinutes (chunkText text 3500 "smart") 0 0 []).2.2 with
        | Except.error e =>
          { result := Except.error e
            fileWritten := false
            processedChunks := (synthLoop speak maxMinutes (chunkText text 3500 "smart") 0 0 []).1 }
        | Except.ok _ =>
          { result := Except.ok (SynthReturn.audioBytes
              (synthLoop speak maxMinutes (chunkText text 3500 "smart") 0 0 []).2.1)
            fileWritten := true
            processedChunks :=
              (synthLoop speak maxMinutes (chunkText text 3500 "smart") 0 0 []).1 }) := rfl
  rw [hun, hkey]
  rw [if_neg (by decide : ¬((!true) = true))]
  rw [h2, h1]

/-- Witness for the amended C3 at a concrete input: a 2-minute stub segment
against a 1-minute budget aborts on the first chunk. -/
theorem synthesize_length_abort_witness :
    synthesize (some (ofS "sk-test")) (fun _ => 120000) (ofS "Hi there") "alloy" 1 false =
      { result := Except.error (PyError.genericError
          "TTS request failed for chunk 1: Exceeded max minutes: 1")
        fileWritten := false
        processedChunks := 1 } :=
  synthesize_length_abort (ofS "sk-test") (fun _ => 120000) (ofS "Hi there") "alloy" 1 0
    (by decide) (by decide)

/-! ### Normal form of `_clean_text` (C6, amended) -/

/-- Checker: the string contains no two adjacent space characters
(every run of spaces has been collapsed). -/
def noDoubleSpaceB : Str → Bool
  | [] => true
  | [_] => true
  | a :: b :: rest => !(a = ' ' && b = ' ') && noDoubleSpaceB (b :: rest)

/-- Checker: after every newline, the following whitespace run contains no
newline beyond an immediately adjacent one.  Equivalently: any two newlines
separated only by whitespace are adjacent, so every blank-line stretch is
exactly one blank line `"\n\n"` (in particular no three newlines in a row and
no `"\n \n"`). -/
def noStrayBlankB : Str → Bool
  | [] => true
  | c :: rest =>
    (if c = '\n' then decide ('\n' ∉ (rest.takeWhile pyIsSpace).drop 1) else true) &&
      noStrayBlankB rest

/-- Checker: no leading and no trailing whitespace. -/
def strippedB (l : Str) : Bool :=
  (match l.head? with | some c => !pyIsSpace c | none => true) &&
    (match l.getLast? with | some c => !pyIsSpace c | none => true)

theorem strippedB_of_stripped {l : Str} (h : Stripped l) : strippedB l = true := by
  unfold strippedB
  apply (Bool.and_eq_true _ _).mpr
  constructor
  · cases hh : l.head? with
    | none => rfl
    | some c => simp [h.1 c hh]
  · cases hg : l.getLast? with
    | none => rfl
    | some c => simp [h.2 c hg]

/-- Unfolding characterization of `noDoubleSpaceB` at a cons. -/
theorem noDouble_cons (a : Char) (rest : Str) :
    noDoubleSpaceB (a :: rest) = true ↔
      (noDoubleSpaceB rest = true ∧ (a = ' ' → ∀ c ∈ rest.head?, c ≠ ' ')) := by
  cases rest with
  | nil => simp [noDoubleSpaceB]
  | cons b r =>
    show (!(a = ' ' && b = ' ') && noDoubleSpaceB (b :: r)) = true ↔ _
    constructor
    · intro h
      obtain ⟨h1, h2⟩ := (Bool.and_eq_true _ _).mp h
      refine ⟨h2, fun ha c hc => ?_⟩
      have hcb : b = c := by simpa using hc
      subst hcb
      intro hcs
      rw [ha, hcs] at h1
      simp at h1
    · intro ⟨h1, h2⟩
      apply (Bool.and_eq_true _ _).mpr
      refine ⟨?_, h1⟩
      by_cases ha : a = ' '
      · have := h2 ha b rfl
        simp [ha, this]
      · simp [ha]

/-- The space-collapse scanner emits no two adjacent spaces, and after a space
its output never starts with another space. -/
theorem collapse_noDouble :
    ∀ (s : Str) (b : Bool),
      noDoubleSpaceB (collapseSpacesGo b s) = true ∧
        (b = true → ∀ c ∈ (collapseSpacesGo b s).head?, c ≠ ' ') := by
  intro s
  induction s with
  | nil =>
    intro b
    exact ⟨rfl, fun _ c hc => by simp [collapseSpacesGo] at hc⟩
  | cons c rest ih =>
    intro b
    by_cases hc : c = ' '
    · subst hc
      cases b with
      | true =>
        have hg : collapseSpacesGo true (' ' :: rest) = collapseSpacesGo true rest := by
          simp [collapseSpacesGo]
        rw [hg]
        exact ⟨(ih true).1, fun _ => (ih true).2 rfl⟩
      | false =>
        have hg : collapseSpacesGo false (' ' :: rest) =
            ' ' :: collapseSpacesGo true rest := by
          simp [collapseSpacesGo]
        rw [hg]
        refine ⟨(noDouble_cons _ _).mpr ⟨(ih true).1, fun _ => (ih true).2 rfl⟩, ?_⟩
        intro h; cases h
    · have hg : ∀ b2, collapseSpacesGo b2 (c :: rest) = c :: collapseSpacesGo false rest := by
        intro b2; simp [collapseSpacesGo, hc]
      constructor
      · rw [hg b]
        refine (noDouble_cons _ _).mpr ⟨(ih false).1, fun ha => absurd ha hc⟩
      · intro _ d hd
        rw [hg b] at hd
        have hcd : c = d := by simpa using hd
        rw [← hcd]
        exact hc

/-- Grammar of blank-line-normalized text: newlines occur only as a single
`'\n'` or a double `"\n\n"`, in each case followed by newline-free whitespace
and then either the end or a non-whitespace character. -/
inductive NlOk : Str → Prop
  | nil : NlOk []
  | chr {c : Char} {l : Str} : c ≠ '\n' → NlOk l → NlOk (c :: l)
  | one {w l : Str} : (∀ c ∈ w, pyIsSpace c = true ∧ c ≠ '\n') →
      (∀ c ∈ l.head?, pyIsSpace c = false) → NlOk l → NlOk ('\n' :: (w ++ l))
  | two {w l : Str} : (∀ c ∈ w, pyIsSpace c = true ∧ c ≠ '\n') →
      (∀ c ∈ l.head?, pyIsSpace c = false) → NlOk l → NlOk ('\n' :: '\n' :: (w ++ l))

/-- If `lastNl l = none` there is no newline in `l`. -/
theorem lastNl_none_no_nl : ∀ {l : Str}, lastNl l = none → ∀ c ∈ l, c ≠ '\n' := by
  intro l
  induction l with
  | nil => intro _ c hc; simp at hc
  | cons a t ih =>
    intro h c hc
    unfold lastNl at h
    cases ht : lastNl t with
    | some k => rw [ht] at h; cases h
    | none =>
      rw [ht] at h
      by_cases ha : a = '\n'
      · rw [if_pos ha] at h; cases h
      · rcases List.mem_cons.mp hc with rfl | hc2
        · exact ha
        · exact ih ht c hc2

/-- Beyond the last newline there is no newline. -/
theorem lastNl_drop_no_nl : ∀ {l : Str} {k : Nat}, lastNl l = some k →
    ∀ c ∈ l.drop (k + 1), c ≠ '\n' := by
  intro l
  induction l with
  | nil => intro k h; cases h
  | cons a t ih =>
    intro k h c hc
    unfold lastNl at h
    cases ht : lastNl t with
    | some k2 =>
      rw [ht] at h
      have hk : k = k2 + 1 := (Option.some.inj h).symm
      subst hk
      exact ih ht c hc
    | none =>
      rw [ht] at h
      by_cases ha : a = '\n'
      · rw [if_pos ha] at h
        have hk : k = 0 := (Option.some.inj h).symm
        subst hk
        exact lastNl_none_no_nl ht c hc
      · rw [if_neg ha] at h; cases h

/-- Shape of a flushed whitespace run that began with a newline. -/
theorem flushRun_shape {w : Str} (hw : ∀ c ∈ w, pyIsSpace c = true) :
    ∃ w2 : Str,
      (flushRun ('\n' :: w) = '\n' :: w2 ∨ flushRun ('\n' :: w) = '\n' :: '\n' :: w2) ∧
        (∀ c ∈ w2, pyIsSpace c = true ∧ c ≠ '\n') := by
  unfold flushRun
  cases hk : lastNl ('\n' :: w) with
  | none =>
    exfalso
    exact lastNl_none_no_nl hk '\n' (List.mem_cons_self _ _) rfl
  | some k =>
    by_cases hk0 : k = 0
    · subst hk0
      refine ⟨w, Or.inl (by simp), fun c hc => ?_⟩
      have hnn := lastNl_drop_no_nl hk c (by simpa using hc)
      exact ⟨hw c hc, hnn⟩
    · refine ⟨('\n' :: w).drop (k + 1), Or.inr (by simp [hk0]), fun c hc => ?_⟩
      have hnn := lastNl_drop_no_nl hk c hc
      have hcw : c ∈ w := by
        have : ('\n' :: w).drop (k + 1) = w.drop k := by
          cases k with
          | zero => exact absurd rfl hk0
          | succ k2 => rfl
        rw [this] at hc
        exact List.mem_of_mem_drop hc
      exact ⟨hw c hcw, hnn⟩

/-- The blank-line scanner produces `NlOk` output from any buffer satisfying
the run invariant. -/
theorem subBlankGo_NlOk :
    ∀ (s buf : Str),
      (buf = [] ∨ ∃ w, buf = '\n' :: w ∧ ∀ c ∈ w, pyIsSpace c = true) →
      NlOk (subBlankGo buf s) := by
  intro s
  induction s with
  | nil =>
    intro buf hbuf
    rcases hbuf with rfl | ⟨w, rfl, hw⟩
    · exact NlOk.nil
    · show NlOk (flushRun ('\n' :: w))
      obtain ⟨w2, hsh, hw2⟩ := flushRun_shape hw
      rcases hsh with hsh | hsh
      · rw [hsh, show ('\n' :: w2 : Str) = '\n' :: (w2 ++ []) by simp]
        exact NlOk.one hw2 (fun c hc => by simp at hc) NlOk.nil
      · rw [hsh, show ('\n' :: '\n' :: w2 : Str) = '\n' :: '\n' :: (w2 ++ []) by simp]
        exact NlOk.two hw2 (fun c hc => by simp at hc) NlOk.nil
  | cons c rest ih =>
    intro buf hbuf
    rcases hbuf with rfl | ⟨w, rfl, hw⟩
    · by_cases hc : c = '\n'
      · subst hc
        have hg : subBlankGo [] ('\n' :: rest) = subBlankGo ['\n'] rest := by
          simp [subBlankGo]
        rw [hg]
        exact ih ['\n'] (Or.inr ⟨[], rfl, fun d hd => by simp at hd⟩)
      · have hg : subBlankGo [] (c :: rest) = c :: subBlankGo [] rest := by
          simp [subBlankGo, hc]
        rw [hg]
        exact NlOk.chr hc (ih [] (Or.inl rfl))
    · by_cases hc : pyIsSpace c = true
      · have hg : subBlankGo ('\n' :: w) (c :: rest) =
            subBlankGo (('\n' :: w) ++ [c]) rest := by
          simp [subBlankGo, hc]
        rw [hg]
        refine ih (('\n' :: w) ++ [c]) (Or.inr ⟨w ++ [c], rfl, fun d hd => ?_⟩)
        rcases List.mem_append.mp hd with hd | hd
        · exact hw d hd
        · have : d = c := by simpa using hd
          rw [this]; exact hc
      · have hg : subBlankGo ('\n' :: w) (c :: rest) =
            flushRun ('\n' :: w) ++ c :: subBlankGo [] rest := by
          simp [subBlankGo, hc]
        rw [hg]
        have hout := ih [] (Or.inl rfl)
        have hcons : NlOk (c :: subBlankGo [] rest) :=
          NlOk.chr (fun h => by rw [h] at hc; exact hc rfl) hout
        have hhead : ∀ d ∈ (c :: subBlankGo [] rest).head?, pyIsSpace d = false := by
          intro d hd
          have : c = d := by simpa using hd
          rw [← this]
          exact (Bool.not_eq_true _).mp hc
        obtain ⟨w2, hsh, hw2⟩ := flushRun_shape hw
        rcases hsh with hsh | hsh
        · rw [hsh, show ('\n' :: w2 : Str) ++ c :: subBlankGo [] rest =
            '\n' :: (w2 ++ c :: subBlankGo [] rest) by simp]
          exact NlOk.one hw2 hhead hcons
        · rw [hsh, show ('\n' :: '\n' :: w2 : Str) ++ c :: subBlankGo [] rest =
            '\n' :: '\n' :: (w2 ++ c :: subBlankGo [] rest) by simp]
          exact NlOk.two hw2 hhead hcons

/-- On a string with a non-whitespace head (or empty), the space-collapse
scanner is state-independent and preserves the head. -/
theorem collapseGo_of_headNonWs {l : Str} (hl : ∀ c ∈ l.head?, pyIsSpace c = false) :
    (∀ b, collapseSpacesGo b l = collapseSpacesGo false l) ∧
      (collapseSpacesGo false l).head? = l.head? := by
  cases l with
  | nil => exact ⟨fun _ => rfl, rfl⟩
  | cons h t =>
    have hh := hl h rfl
    have hns : ¬h = ' ' := by
      intro hsp; rw [hsp] at hh
      exact absurd hh (by decide)
    exact ⟨fun b => by simp [collapseSpacesGo, hns], by simp [collapseSpacesGo, hns]⟩

/-- Collapsing a newline-free whitespace block followed by a
non-whitespace-headed tail: the block collapses to another such block. -/
theorem collapseGo_ws_block {l : Str} (hl : ∀ c ∈ l.head?, pyIsSpace c = false) :
    ∀ (w : Str), (∀ c ∈ w, pyIsSpace c = true ∧ c ≠ '\n') → ∀ b,
      ∃ w2, (∀ c ∈ w2, pyIsSpace c = true ∧ c ≠ '\n') ∧
        collapseSpacesGo b (w ++ l) = w2 ++ collapseSpacesGo false l := by
  intro w
  induction w with
  | nil =>
    intro _ b
    refine ⟨[], fun c hc => by simp at hc, ?_⟩
    rw [List.nil_append, List.nil_append, (collapseGo_of_headNonWs hl).1 b]
  | cons d w2 ihw =>
    intro hdw b
    have hd := hdw d (List.mem_cons_self _ _)
    have hrest : ∀ c ∈ w2, pyIsSpace c = true ∧ c ≠ '\n' :=
      fun c hc => hdw c (List.mem_cons_of_mem _ hc)
    by_cases hds : d = ' '
    · subst hds
      cases b with
      | true =>
        obtain ⟨w3, hw3, heq⟩ := ihw hrest true
        refine ⟨w3, hw3, ?_⟩
        rw [show collapseSpacesGo true ((' ' :: w2) ++ l) =
          collapseSpacesGo true (w2 ++ l) by simp [collapseSpacesGo], heq]
      | false =>
        obtain ⟨w3, hw3, heq⟩ := ihw hrest true
        refine ⟨' ' :: w3, ?_, ?_⟩
        · intro c hc
          rcases List.mem_cons.mp hc with rfl | hc2
          · exact ⟨by decide, by decide⟩
          · exact hw3 c hc2
        · rw [show collapseSpacesGo false ((' ' :: w2) ++ l) =
            ' ' :: collapseSpacesGo true (w2 ++ l) by simp [collapseSpacesGo], heq]
          rfl
    · obtain ⟨w3, hw3, heq⟩ := ihw hrest false
      refine ⟨d :: w3, ?_, ?_⟩
      · intro c hc
        rcases List.mem_cons.mp hc with rfl | hc2
        · exact hd
        · exact hw3 c hc2
      · rw [show collapseSpacesGo b ((d :: w2) ++ l) =
          d :: collapseSpacesGo false (w2 ++ l) by simp [collapseSpacesGo, hds], heq]
        rfl

/-- Space collapsing preserves the blank-line grammar. -/
theorem collapse_NlOk : ∀ {l : Str}, NlOk l → ∀ b, NlOk (collapseSpacesGo b l) := by
  intro l h
  induction h with
  | nil => intro _; exact NlOk.nil
  | @chr c l2 hc _ ih =>
    intro b
    by_cases hcs : c = ' '
    · subst hcs
      cases b with
      | true =>
        rw [show collapseSpacesGo true (' ' :: l2) = collapseSpacesGo true l2 by
          simp [collapseSpacesGo]]
        exact ih true
      | false =>
        rw [show collapseSpacesGo false (' ' :: l2) = ' ' :: collapseSpacesGo true l2 by
          simp [collapseSpacesGo]]
        exact NlOk.chr (by decide) (ih true)
    · rw [show collapseSpacesGo b (c :: l2) = c :: collapseSpacesGo false l2 by
        simp [collapseSpacesGo, hcs]]
      exact NlOk.chr hc (ih false)
  | @one w l2 hw hhead _ ih =>
    intro b
    rw [show collapseSpacesGo b ('\n' :: (w ++ l2)) =
      '\n' :: collapseSpacesGo false (w ++ l2) by simp [collapseSpacesGo]]
    obtain ⟨w2, hw2, heq⟩ := collapseGo_ws_block hhead w hw false
    rw [heq]
    refine NlOk.one hw2 ?_ (ih false)
    rw [(collapseGo_of_headNonWs hhead).2]
    exact hhead
  | @two w l2 hw hhead _ ih =>
    intro b
    rw [show collapseSpacesGo b ('\n' :: '\n' :: (w ++ l2)) =
      '\n' :: '\n' :: collapseSpacesGo false (w ++ l2) by simp [collapseSpacesGo]]
    obtain ⟨w2, hw2, heq⟩ := collapseGo_ws_block hhead w hw false
    rw [heq]
    refine NlOk.two hw2 ?_ (ih false)
    rw [(collapseGo_of_headNonWs hhead).2]
    exact hhead

/-- `takeWhile` over a whitespace block followed by a
non-whitespace-headed tail picks out exactly the block. -/
theorem takeWhile_ws_append {w : Str} (hw : ∀ c ∈ w, pyIsSpace c = true) :
    ∀ {X : Str}, (∀ c ∈ X.head?, pyIsSpace c = false) →
      (w ++ X).takeWhile pyIsSpace = w := by
  induction w with
  | nil =>
    intro X hX
    rw [List.nil_append]
    cases X with
    | nil => rfl
    | cons h t =>
      rw [List.takeWhile_cons, hX h rfl]
      rfl
  | cons d w2 ih =>
    intro X hX
    rw [List.cons_append, List.takeWhile_cons, hw d (List.mem_cons_self _ _)]
    simp only [if_true]
    rw [ih (fun c hc => hw c (List.mem_cons_of_mem _ hc)) hX]

/-- A newline-free block passes through the blank-line checker. -/
theorem noStray_append_no_nl {w : Str} (hw : ∀ c ∈ w, c ≠ '\n') (r : Str) :
    noStrayBlankB (w ++ r) = noStrayBlankB r := by
  induction w with
  | nil => rfl
  | cons d w2 ih =>
    rw [List.cons_append,
      show noStrayBlankB (d :: (w2 ++ r)) =
        ((if d = '\n' then decide ('\n' ∉ ((w2 ++ r).takeWhile pyIsSpace).drop 1)
          else true) && noStrayBlankB (w2 ++ r)) from rfl,
      if_neg (hw d (List.mem_cons_self _ _)),
      ih fun c hc => hw c (List.mem_cons_of_mem _ hc)]
    exact Bool.true_and _

/-- A string satisfying the blank-line grammar passes the checker. -/
theorem NlOk_noStray : ∀ {l : Str}, NlOk l → noStrayBlankB l = true := by
  intro l h
  induction h with
  | nil => rfl
  | @chr c l2 hc _ ih =>
    show ((if c = '\n' then _ else true) && noStrayBlankB l2) = true
    rw [if_neg hc, ih]
    rfl
  | @one w l2 hw hhead _ ih =>
    have h1 : (w ++ l2).takeWhile pyIsSpace = w :=
      takeWhile_ws_append (fun c hc => (hw c hc).1) hhead
    show ((if ('\n' : Char) = '\n' then
        decide ('\n' ∉ ((w ++ l2).takeWhile pyIsSpace).drop 1) else true) &&
      noStrayBlankB (w ++ l2)) = true
    rw [if_pos rfl, h1, noStray_append_no_nl (fun c hc => (hw c hc).2), ih]
    have : ('\n' ∉ w.tail) := fun hm => (hw '\n' (List.mem_of_mem_tail hm)).2 rfl
    simp [this]
  | @two w l2 hw hhead _ ih =>
    have h1 : (w ++ l2).takeWhile pyIsSpace = w :=
      takeWhile_ws_append (fun c hc => (hw c hc).1) hhead
    have h2 : ('\n' :: (w ++ l2)).takeWhile pyIsSpace = '\n' :: w := by
      rw [List.takeWhile_cons]
      simp only [show pyIsSpace '\n' = true from rfl, if_true, h1]
    show ((if ('\n' : Char) = '\n' then
        decide ('\n' ∉ (('\n' :: (w ++ l2)).takeWhile pyIsSpace).drop 1) else true) &&
      noStrayBlankB ('\n' :: (w ++ l2))) = true
    rw [if_pos rfl, h2]
    have hno : ('\n' ∉ w) := fun hm => (hw '\n' hm).2 rfl
    have hgap1 : decide ('\n' ∉ (('\n' :: w : Str)).drop 1) = true := by
      simp only [List.drop_succ_cons, List.drop_zero]
      exact decide_eq_true hno
    rw [hgap1]
    show noStrayBlankB ('\n' :: (w ++ l2)) = true
    show ((if ('\n' : Char) = '\n' then
        decide ('\n' ∉ ((w ++ l2).takeWhile pyIsSpace).drop 1) else true) &&
      noStrayBlankB (w ++ l2)) = true
    rw [if_pos rfl, h1, noStray_append_no_nl (fun c hc => (hw c hc).2), ih]
    have : ('\n' ∉ w.tail) := fun hm => (hw '\n' (List.mem_of_mem_tail hm)).2 rfl
    simp [this]

theorem noStray_tail {c : Char} {r : Str} (h : noStrayBlankB (c :: r) = true) :
    noStrayBlankB r = true :=
  ((Bool.and_eq_true _ _).mp h).2

theorem noDouble_tail {a : Char} {r : Str} (h : noDoubleSpaceB (a :: r) = true) :
    noDoubleSpaceB r = true :=
  ((noDouble_cons a r).mp h).1

theorem noStray_dropWhile (p : Char → Bool) :
    ∀ l : Str, noStrayBlankB l = true → noStrayBlankB (l.dropWhile p) = true := by
  intro l
  induction l with
  | nil => intro h; exact h
  | cons c r ih =>
    intro h
    rw [List.dropWhile_cons]
    by_cases hc : p c = true
    · rw [if_pos hc]; exact ih (noStray_tail h)
    · rw [if_neg hc]; exact h

theorem noDouble_dropWhile (p : Char → Bool) :
    ∀ l : Str, noDoubleSpaceB l = true → noDoubleSpaceB (l.dropWhile p) = true := by
  intro l
  induction l with
  | nil => intro h; exact h
  | cons c r ih =>
    intro h
    rw [List.dropWhile_cons]
    by_cases hc : p c = true
    · rw [if_pos hc]; exact ih (noDouble_tail h)
    · rw [if_neg hc]; exact h

/-- `takeWhile` of a prefix is a prefix of `takeWhile`. -/
theorem takeWhile_take (p : Char → Bool) :
    ∀ (r : Str) (m : Nat), ∃ k, (r.take m).takeWhile p = (r.takeWhile p).take k := by
  intro r
  induction r with
  | nil => intro m; exact ⟨0, by simp⟩
  | cons d r2 ih =>
    intro m
    cases m with
    | zero => exact ⟨0, by simp⟩
    | succ m2 =>
      rw [List.take_succ_cons, List.takeWhile_cons, List.takeWhile_cons]
      by_cases hd : p d = true
      · rw [if_pos hd, if_pos hd]
        obtain ⟨k, hk⟩ := ih m2
        exact ⟨k + 1, by rw [hk, List.take_succ_cons]⟩
      · rw [if_neg hd, if_neg hd]
        exact ⟨0, rfl⟩

theorem noStray_take :
    ∀ (l : Str) (n : Nat), noStrayBlankB l = true → noStrayBlankB (l.take n) = true := by
  intro l
  induction l with
  | nil => intro n h; simpa using h
  | cons c r ih =>
    intro n h
    cases n with
    | zero => rfl
    | succ m =>
      rw [List.take_succ_cons]
      obtain ⟨h1, h2⟩ := (Bool.and_eq_true _ _).mp h
      show ((if c = '\n' then
          decide ('\n' ∉ ((r.take m).takeWhile pyIsSpace).drop 1) else true) &&
        noStrayBlankB (r.take m)) = true
      apply (Bool.and_eq_true _ _).mpr
      refine ⟨?_, ih m h2⟩
      by_cases hc : c = '\n'
      · rw [if_pos hc]
        rw [if_pos hc] at h1
        have hmem : '\n' ∉ (r.takeWhile pyIsSpace).drop 1 := of_decide_eq_true h1
        apply decide_eq_true
        obtain ⟨k, hk⟩ := takeWhile_take pyIsSpace r m
        rw [hk]
        intro hmm
        apply hmem
        rw [List.drop_take] at hmm
        exact List.mem_of_mem_take hmm
      · rw [if_neg hc]

theorem noDouble_take :
    ∀ (l : Str) (n : Nat), noDoubleSpaceB l = true → noDoubleSpaceB (l.take n) = true := by
  intro l
  induction l with
  | nil => intro n h; simpa using h
  | cons a r ih =>
    intro n h
    cases n with
    | zero => rfl
    | succ m =>
      rw [List.take_succ_cons]
      obtain ⟨h1, h2⟩ := (noDouble_cons a r).mp h
      apply (noDouble_cons a (r.take m)).mpr
      refine ⟨ih m h1, fun ha c hc => ?_⟩
      apply h2 ha c
      cases r with
      | nil => simp at hc
      | cons d t =>
        cases m with
        | zero => simp at hc
        | succ m2 =>
          rw [List.take_succ_cons] at hc
          exact hc

/-- `dropTrailing` is a prefix (`take`) of its input. -/
theorem dropTrailing_take (u : Str) :
    dropTrailing u = u.take (dropTrailing u).length := by
  obtain ⟨w, hw, -⟩ := dropTrailing_decomp u
  calc dropTrailing u = (dropTrailing u ++ w).take (dropTrailing u).length := by
        rw [List.take_left]
    _ = u.take (dropTrailing u).length := by rw [← hw]

/-- Stripping preserves both checkers. -/
theorem checkers_strip {l : Str} (hs : noStrayBlankB l = true)
    (hd : noDoubleSpaceB l = true) :
    noStrayBlankB (strip l) = true ∧ noDoubleSpaceB (strip l) = true := by
  have hus := noStray_dropWhile pyIsSpace l hs
  have hud := noDouble_dropWhile pyIsSpace l hd
  show noStrayBlankB (dropTrailing (l.dropWhile pyIsSpace)) = true ∧
    noDoubleSpaceB (dropTrailing (l.dropWhile pyIsSpace)) = true
  rw [dropTrailing_take]
  exact ⟨noStray_take _ _ hus, noDouble_take _ _ hud⟩

/-- C6 (amended): `_clean_text` is a pure total function whose output
contains no two newlines separated by (possibly empty) whitespace other than
an immediately adjacent pair — i.e. every blank-line sequence has been
collapsed to exactly one blank line — contains no two adjacent spaces — every
run of space characters has been collapsed to a single space (tabs and other
horizontal whitespace are not collapsed: see the counterexample) — and has no
leading or trailing whitespace; the empty string maps to the empty string. -/
theorem cleanText_normal_form (t : Str) :
    noStrayBlankB (cleanText t) = true ∧
      noDoubleSpaceB (cleanText t) = true ∧
      strippedB (cleanText t) = true ∧
      cleanText [] = [] := by
  have hnl : NlOk (collapseSpaces (subBlank t)) :=
    collapse_NlOk (subBlankGo_NlOk t [] (Or.inl rfl)) false
  have hstray := NlOk_noStray hnl
  have hdouble := (collapse_noDouble (subBlank t) false).1
  obtain ⟨h1, h2⟩ := checkers_strip hstray hdouble
  exact ⟨h1, h2, strippedB_of_stripped (stripped_strip _), rfl⟩

end NL2Audio
